import Mathlib

/-!
Shallow embedding of the two scripts of this repository:
  * EDA_job_monitor/EDA_job_monitor.py  (container job-health monitor)
  * parser_sshd_config/parse_sshd_config.py  (sshd compliance checker)

Python strings are embedded as `String` / `List Char`; Python `datetime`
instants are embedded as `Int` seconds on the proleptic Gregorian UTC
timeline (the scripts strip fractional seconds before parsing, so second
granularity is exact for every parsed value); `None` becomes `none`.
-/

namespace Monitor

/-- One whitespace-trimming pass from the right, as in the Python
`str.strip` (we use `Char.isWhitespace` for the Python notion of
whitespace). -/
def stripRight (l : List Char) : List Char :=
  (l.reverse.dropWhile Char.isWhitespace).reverse

/-- Embedding of the Python `s.strip()`. -/
def pyStripL (l : List Char) : List Char :=
  stripRight (l.dropWhile Char.isWhitespace)

/-- Proleptic-Gregorian leap-year rule used by `datetime.date`. -/
def isLeap (y : Nat) : Bool :=
  y % 4 == 0 && (y % 100 != 0 || y % 400 == 0)

/-- Day count of a month, as validated by the `datetime` constructor. -/
def daysInMonth (y m : Nat) : Nat :=
  if m = 2 then (if isLeap y then 29 else 28)
  else if m = 4 ∨ m = 6 ∨ m = 9 ∨ m = 11 then 30
  else 31

/-- Days from 1970-01-01 to year `y`, month `m`, day `d` (civil-from-days
inverse, standard era-based formula). -/
def daysFromCivil (y : Int) (m d : Nat) : Int :=
  let y2 : Int := if m ≤ 2 then y - 1 else y
  let era : Int := Int.ediv y2 400
  let yoe : Nat := (y2 - era * 400).toNat
  let mp : Nat := if 2 < m then m - 3 else m + 9
  let doy : Nat := (153 * mp + 2) / 5 + d - 1
  let doe : Nat := yoe * 365 + yoe / 4 - yoe / 100 + doy
  era * 146097 + (doe : Int) - 719468

/-- `(year, month, day)` of a day count since 1970-01-01 (inverse of
`daysFromCivil`, used only to render ISO8601 strings). -/
def civilFromDays (z0 : Int) : Int × Nat × Nat :=
  let z : Int := z0 + 719468
  let era : Int := Int.ediv z 146097
  let doe : Nat := (z - era * 146097).toNat
  let yoe : Nat := (doe - doe / 1460 + doe / 36524 - doe / 146096) / 365
  let y : Int := (yoe : Int) + era * 400
  let doy : Nat := doe - (365 * yoe + yoe / 4 - yoe / 100)
  let mp : Nat := (5 * doy + 2) / 153
  let d : Nat := doy - (153 * mp + 2) / 5 + 1
  let m : Nat := if mp < 10 then mp + 3 else mp - 9
  (y + (if m ≤ 2 then 1 else 0), m, d)

/-- A naive wall-clock datetime, the result of `datetime.fromisoformat`. -/
structure NaiveDT where
  year : Nat
  month : Nat
  day : Nat
  hour : Nat
  minute : Nat
  second : Nat
deriving DecidableEq, Repr

/-- UTC instant (seconds since 1970-01-01T00:00:00Z) of a wall-clock
datetime carrying a UTC offset of `offMin` minutes. -/
def toInstant (t : NaiveDT) (offMin : Int) : Int :=
  86400 * daysFromCivil (t.year) t.month t.day
    + 3600 * t.hour + 60 * t.minute + t.second - 60 * offMin

/-- Two decimal digits. -/
def d2 (a b : Char) : Option Nat :=
  if a.isDigit && b.isDigit then
    some ((a.toNat - 48) * 10 + (b.toNat - 48))
  else none

/-- Four decimal digits. -/
def d4 (a b c d : Char) : Option Nat :=
  match d2 a b, d2 c d with
  | some hi, some lo => some (hi * 100 + lo)
  | _, _ => none

/-- Range validation performed by the `datetime` constructor. -/
def validDate (y mo da : Nat) : Bool :=
  1 ≤ y && y ≤ 9999 && 1 ≤ mo && mo ≤ 12 && 1 ≤ da && da ≤ daysInMonth y mo

/-- Offset suffix `±HH:MM` of an ISO string (CPython accepts any offset of
total magnitude below 24 hours). Returns signed minutes. -/
def parseOffset (l : List Char) : Option (Option Int) :=
  match l with
  | [] => some none
  | [sg, o1, o2, ':', o3, o4] =>
    match d2 o1 o2, d2 o3 o4 with
    | some oh, some om =>
      if oh * 60 + om < 1440 then
        if sg = '+' then some (some ((oh * 60 + om : Nat) : Int))
        else if sg = '-' then some (some (-((oh * 60 + om : Nat) : Int)))
        else none
      else none
    | _, _ => none
  | _ => none

/-- Time-of-day part `HH:MM[:SS]` with optional offset suffix. -/
def parseTimePart (l : List Char) : Option (Nat × Nat × Nat × Option Int) :=
  match l with
  | [h1, h2, ':', m1, m2] =>
    match d2 h1 h2, d2 m1 m2 with
    | some hh, some mi =>
      if hh ≤ 23 && mi ≤ 59 then some (hh, mi, 0, none) else none
    | _, _ => none
  | h1 :: h2 :: ':' :: m1 :: m2 :: ':' :: s1 :: s2 :: rest =>
    match d2 h1 h2, d2 m1 m2, d2 s1 s2 with
    | some hh, some mi, some ss =>
      if hh ≤ 23 && mi ≤ 59 && ss ≤ 59 then
        match parseOffset rest with
        | some off => some (hh, mi, ss, off)
        | none => none
      else none
    | _, _, _ => none
  | _ => none

/-- Model of `datetime.fromisoformat` on the fragment the script can reach
(after the script has stripped a trailing `Z` and anything from the first
dot on): `YYYY-MM-DD`, optionally followed by a single separator
character, a time of day `HH:MM[:SS]`, and an offset `±HH:MM`. Returns
the wall-clock fields and the offset in minutes when one is present. -/
def fromiso (l : List Char) : Option (NaiveDT × Option Int) :=
  match l with
  | y1 :: y2 :: y3 :: y4 :: c1 :: m1 :: m2 :: c2 :: da1 :: da2 :: rest =>
    match d4 y1 y2 y3 y4, d2 m1 m2, d2 da1 da2 with
    | some y, some mo, some da =>
      if c1 = '-' && c2 = '-' && validDate y mo da then
        match rest with
        | [] => some (⟨y, mo, da, 0, 0, 0⟩, none)
        | _sep :: timePart =>
          match parseTimePart timePart with
          | some (hh, mi, ss, off) => some (⟨y, mo, da, hh, mi, ss⟩, off)
          | none => none
      else none
    | _, _, _ => none
  | _ => none

/-- The `Z`-suffix step of `parse_time`: strip a trailing literal `Z` and
remember (`true`) that the zone is UTC. -/
def afterZ (l : List Char) : List Char × Bool :=
  if l.getLast? = some 'Z' then (l.dropLast, true) else (l, false)

/-- The subsecond-truncation step of `parse_time`:
`s = s.split(".", 1)[0]` when a dot is present. -/
def cutDot (l : List Char) : List Char :=
  if '.' ∈ l then l.takeWhile (fun c => c ≠ '.') else l

/-- Final step of `parse_time`: with an explicit `Z` the parsed offset is
overridden by UTC (`replace(tzinfo=UTC)`); otherwise an aware result is
converted to UTC and a naive one is assumed UTC. -/
def finishParse (hasZ : Bool) (r : Option (NaiveDT × Option Int)) : Option Int :=
  match r with
  | none => none
  | some (t, off) =>
    if hasZ then some (toInstant t 0) else some (toInstant t (off.getD 0))

/-- `parse_time` of EDA_job_monitor.py on the character list of its
argument. -/
def parse_timeL (l : List Char) : Option Int :=
  if l = [] then none
  else
    let z := afterZ (pyStripL l)
    finishParse z.2 (fromiso (cutDot z.1))

/-- `parse_time` of EDA_job_monitor.py (`none` embeds Python `None`; the
empty string is falsy, as in `if not s`). -/
def parse_time (s : Option String) : Option Int :=
  match s with
  | none => none
  | some s => parse_timeL s.data

/-- Zero-padding to two digits, as `datetime.isoformat` renders fields. -/
def pad2 (n : Nat) : String :=
  if n < 10 then "0" ++ toString n else toString n

/-- Zero-padding to four digits for the year field. -/
def pad4 (n : Nat) : String :=
  if n < 10 then "000" ++ toString n
  else if n < 100 then "00" ++ toString n
  else if n < 1000 then "0" ++ toString n
  else toString n

/-- Rendering of a UTC instant as the script emits it:
`dt.isoformat().replace("+00:00", "Z")` on a whole-second UTC datetime,
that is `YYYY-MM-DDTHH:MM:SSZ`. -/
def iso8601Z (t : Int) : String :=
  let day := Int.ediv t 86400
  let tod := (Int.emod t 86400).toNat
  let c := civilFromDays day
  pad4 c.1.toNat ++ "-" ++ pad2 c.2.1 ++ "-" ++ pad2 c.2.2 ++ "T"
    ++ pad2 (tod / 3600) ++ ":" ++ pad2 (tod % 3600 / 60) ++ ":"
    ++ pad2 (tod % 60) ++ "Z"

/-- The nested `State` mapping of an inspect result; an absent field
embeds as `none`. -/
structure StateMap where
  FinishedAt : Option String
  StartedAt : Option String
deriving DecidableEq, Repr

/-- The detail mapping returned by `inspect_container`, restricted to the
fields the script reads. `State = none` embeds both an absent and a falsy
`State` value (`info.get("State", {}) or {}`). -/
structure ContainerDetail where
  State : Option StateMap
  Created : Option String
deriving DecidableEq, Repr

/-- `state = info.get("State", {}) or {}`. -/
def stateOf (info : ContainerDetail) : StateMap :=
  info.State.getD ⟨none, none⟩

/-- The `candidates` list of `container_last_event_ts`: the parseable
members of `(finished, started, created)`, in that order. -/
def candidatesOf (info : ContainerDetail) : List Int :=
  [parse_time (stateOf info).FinishedAt,
   parse_time (stateOf info).StartedAt,
   parse_time info.Created].filterMap id

/-- `container_last_event_ts` of EDA_job_monitor.py: `None` when no
candidate parses, else `max(candidates)`. -/
def container_last_event_ts (info : ContainerDetail) : Option Int :=
  (candidatesOf info).max?

/-- The per-container classification step of `main`: job-entry string and
whether the container contributes `unhealthy = True`. -/
def classifyJob (now window : Int) (lastTs : Option Int) : String × Bool :=
  match lastTs with
  | none => ("last_seen: unknown", true)
  | some t =>
    if now - t ≤ window then ("executed_at: " ++ iso8601Z t, false)
    else ("last_seen: " ++ iso8601Z t, true)

/-- Python `dict` insertion on an association list: overwrite in place
when the key exists, else append. -/
def dictInsert (d : List (String × String)) (k v : String) :
    List (String × String) :=
  if d.any (fun p => p.1 = k) then
    d.map (fun p => if p.1 = k then (k, v) else p)
  else d ++ [(k, v)]

/-- The loop of `main` over the filtered `(name, cid)` targets, with the
inspect result of each container supplied as input (the subprocess call
is external): builds the `jobs` dict and the `unhealthy` flag. -/
def runJobs (now window : Int) (targets : List (String × ContainerDetail)) :
    List (String × String) × Bool :=
  targets.foldl
    (fun acc t =>
      let r := classifyJob now window (container_last_event_ts t.2)
      (dictInsert acc.1 t.1 r.1, acc.2 || r.2))
    ([], false)

/-- `status = "healthy" if not unhealthy else "unhealthy"`. -/
def healthStatus (now window : Int)
    (targets : List (String × ContainerDetail)) : String :=
  if (runJobs now window targets).2 then "unhealthy" else "healthy"

/-- JSON values, for the fields whose type the engine does not fix. -/
inductive Json where
  | null : Json
  | bool : Bool → Json
  | num : Int → Json
  | str : String → Json
  | arr : List Json → Json
  | obj : List (String × Json) → Json
deriving Repr

/-- Python truthiness of a JSON value. -/
def jtruthy : Json → Bool
  | Json.null => false
  | Json.bool b => b
  | Json.num n => n ≠ 0
  | Json.str s => s ≠ ""
  | Json.arr l => ¬ l.isEmpty
  | Json.obj l => ¬ l.isEmpty

/-- Python `a or b` on an optional JSON value (`none` embeds an absent
key, whose `.get` result `None` is falsy). -/
def pyOrJ (a : Option Json) (b : Json) : Json :=
  match a with
  | none => b
  | some v => if jtruthy v then v else b

/-- `inspect_container` of EDA_job_monitor.py, with the subprocess result
`code, out, err = run(...)` and the JSON decoder (`json.loads`, whose
failure is `none`, embedding the caught `JSONDecodeError`) supplied as
inputs: non-zero exit, undecodable output, a non-array value or an empty
array all yield the empty mapping; a non-empty array yields its first
element. -/
def inspect_container (decode : String → Option Json)
    (code : Int) (out err : String) : Json :=
  if code ≠ 0 then Json.obj []
  else
    match decode out with
    | none => Json.obj []
    | some (Json.arr (x :: _)) => x
    | some _ => Json.obj []

/-- A listed container record (`ContainerSummary`), restricted to the
fields the filter reads; an absent key embeds as `none`. -/
structure ContainerSummary where
  Names : Option Json
  Name : Option Json
  ID : Option Json
  Id : Option Json

/-- `name = c.get("Names") or c.get("Name") or ""`, then list
normalization `name = name[0] if name else ""`. -/
def normName (c : ContainerSummary) : Json :=
  match pyOrJ c.Names (pyOrJ c.Name (Json.str "")) with
  | Json.arr [] => Json.str ""
  | Json.arr (x :: _) => x
  | v => v

/-- `c.get("ID") or c.get("Id") or ""`. -/
def idOf (c : ContainerSummary) : Json :=
  pyOrJ c.ID (pyOrJ c.Id (Json.str ""))

/-- `str.startswith` on the underlying character lists. -/
def pyStartsWith (s pre : String) : Bool :=
  pre.data.isPrefixOf s.data

/-- The matched display name of a record, when the filter accepts it:
the normalized name must be a string starting with the prefix. -/
def matchedName (pre : String) (c : ContainerSummary) : Option String :=
  match normName c with
  | Json.str s => if pyStartsWith s pre then some s else none
  | _ => none

/-- The name-filter loop of `main` (lines 129-136): every accepted record
contributes the pair `(name, c.get("ID") or c.get("Id") or "")`. -/
def nameFilter (pre : String) (cs : List ContainerSummary) :
    List (String × Json) :=
  cs.filterMap (fun c => (matchedName pre c).map (fun s => (s, idOf c)))

/-- Python `a or b` where `a` is an optional string (an environment
lookup): the empty string is falsy. -/
def pyOrStr (a : Option String) (b : String) : String :=
  match a with
  | none => b
  | some s => if s = "" then b else s

/-- `get_ansible_user` of EDA_job_monitor.py, with the environment
supplied as a lookup function (`os.environ.get`). -/
def get_ansible_user (env : String → Option String) : String :=
  pyOrStr (env "ANSIBLE_USER")
    (pyOrStr (env "USER") (pyOrStr (env "USERNAME") "unknown"))

end Monitor

namespace Sshd

/-- Helper of `pySplit`: `cur` holds the characters of the token being
read, in reverse order. -/
def pySplitAux : List Char → List Char → List (List Char)
  | [], cur => if cur.isEmpty then [] else [cur.reverse]
  | c :: rest, cur =>
    if Char.isWhitespace c then
      if cur.isEmpty then pySplitAux rest []
      else cur.reverse :: pySplitAux rest []
    else pySplitAux rest (c :: cur)

/-- Python `str.split()` (split on whitespace runs, no empty tokens). -/
def pySplit (l : List Char) : List (List Char) :=
  pySplitAux l []

/-- Python substring containment `needle in hay`. -/
def pyIn (needle hay : List Char) : Bool :=
  (List.range (hay.length + 1)).any (fun i => needle.isPrefixOf (hay.drop i))

/-- `key in line and "#" not in line`: the line matches the directive. -/
def lineMatches (key line : String) : Bool :=
  pyIn key.data line.data && ¬ pyIn ['#'] line.data

/-- `line.split()[-1]`: the last whitespace-delimited token, `none` when
the split is empty (where Python raises IndexError). -/
def lastToken (line : String) : Option String :=
  ((pySplit line.data).getLast?).map (fun t => String.mk t)

/-- The two module-level dicts of parse_sshd_config.py:
`endMsg` is `end_result["message"]` (holding the `"status"` key and the
directives merged so far) and `msg` is the `message` accumulator. -/
structure SshState where
  endMsg : List (String × String)
  msg : List (String × String)
deriving DecidableEq, Repr

/-- Python dict insertion for the checker state (same semantics as
`Monitor.dictInsert`). -/
def dinsert (d : List (String × String)) (k v : String) :
    List (String × String) :=
  if d.any (fun p => p.1 = k) then
    d.map (fun p => if p.1 = k then (k, v) else p)
  else d ++ [(k, v)]

/-- `d.update(src)`: merge `src` into `d` in insertion order. -/
def dupdate (d src : List (String × String)) : List (String × String) :=
  src.foldl (fun acc p => dinsert acc p.1 p.2) d

/-- Association-list lookup with propositional key equality. -/
def dget (d : List (String × String)) (k : String) : Option String :=
  match d with
  | [] => none
  | p :: rest => if p.1 = k then some p.2 else dget rest k

/-- The inner loop of `get_ssh_config_log` for one expected directive
`key` with default `dflt`, over the configuration lines in order.
`none` embeds the IndexError raised on `line.split()[-1]` of a matching
whitespace-only line. In the equal branch the accumulator is merged into
the report mapping; in the differing branch only the status key is set
(the intermediate `write_to_json` calls are overwritten by the final
unconditional write and do not add observable state). -/
def scanKey (key dflt : String) (st : SshState) :
    List String → Option SshState
  | [] => some st
  | line :: rest =>
    if lineMatches key line then
      match lastToken line with
      | none => none
      | some tok =>
        if dflt = tok then
          let msg2 := dinsert st.msg key tok
          scanKey key dflt ⟨dupdate st.endMsg msg2, msg2⟩ rest
        else
          let msg2 := dinsert st.msg key tok
          scanKey key dflt ⟨dinsert st.endMsg "status" "compliant", msg2⟩ rest
    else scanKey key dflt st rest

/-- The outer loop of `get_ssh_config_log` over the expected directives
(`defaults` as an association list in JSON key order). -/
def scanAll (lines : List String) (st : SshState) :
    List (String × String) → Option SshState
  | [] => some st
  | (k, v) :: rest =>
    match scanKey k v st lines with
    | none => none
    | some st2 => scanAll lines st2 rest

/-- `get_ssh_config_log` of parse_sshd_config.py, from the configuration
file lines and the decoded defaults mapping: the resulting state whose
`endMsg` is the content of the finally written report object
`end_result["message"]`, or `none` when the scan raises. -/
def get_ssh_config_log (lines : List String)
    (defaults : List (String × String)) : Option SshState :=
  scanAll lines ⟨[("status", "non-compliant")], []⟩ defaults

/-- A matching line whose last token differs from the expected default:
the condition under which the status is set to `"compliant"`. -/
def differs (key dflt line : String) : Prop :=
  lineMatches key line = true ∧ lastToken line ≠ some dflt

instance (key dflt line : String) : Decidable (differs key dflt line) := by
  unfold differs; infer_instance

/-- The last tokens of the lines matching `key`, in file order. -/
def matchToks (key : String) (lines : List String) : List String :=
  lines.filterMap (fun l => if lineMatches key l then lastToken l else none)

end Sshd


/-! ## Helper lemmas -/

namespace Monitor

theorem dropWhile_append_cons (p : Char → Bool) (xs ys : List Char) (c : Char)
    (hc : p c = false) :
    List.dropWhile p (xs ++ c :: ys) = List.dropWhile p xs ++ c :: ys := by
  induction xs with
  | nil => simp [List.dropWhile_cons, hc]
  | cons a t ih =>
    by_cases ha : p a = true
    · simp only [List.cons_append, List.dropWhile_cons, ha, if_true, ih]
    · simp only [List.cons_append, List.dropWhile_cons,
        Bool.not_eq_true] at *
      simp [ha]

theorem takeWhile_append_cons (p : Char → Bool) (xs ys : List Char) (c : Char)
    (hxs : ∀ a ∈ xs, p a = true) (hc : p c = false) :
    List.takeWhile p (xs ++ c :: ys) = xs := by
  induction xs with
  | nil => simp [List.takeWhile_cons, hc]
  | cons a t ih =>
    have ha : p a = true := hxs a (List.mem_cons_self a t)
    simp only [List.cons_append, List.takeWhile_cons, ha, if_true]
    rw [ih (fun b hb => hxs b (List.mem_cons_of_mem a hb))]

theorem getLast?_append_cons (xs ys : List Char) (c : Char) :
    (xs ++ c :: ys).getLast? = (c :: ys).getLast? := by
  induction xs with
  | nil => rfl
  | cons a t ih =>
    rw [List.cons_append, ← ih]
    cases t with
    | nil => simp [List.getLast?_cons_cons]
    | cons b t2 => simp [List.getLast?_cons_cons]

theorem getLast?_cons_of_ne_nil (a : Char) (l : List Char) (h : l ≠ []) :
    (a :: l).getLast? = l.getLast? := by
  cases l with
  | nil => exact absurd rfl h
  | cons b t => exact List.getLast?_cons_cons

theorem stripRight_eq_self (l : List Char) (c : Char)
    (hl : l.getLast? = some c) (hc : c.isWhitespace = false) :
    stripRight l = l := by
  unfold stripRight
  have h1 : l.reverse.head? = some c := by rw [List.head?_reverse, hl]
  have h2 : List.dropWhile Char.isWhitespace l.reverse = l.reverse := by
    cases hr : l.reverse with
    | nil => rfl
    | cons x t =>
      have hx : x = c := by rw [hr] at h1; exact Option.some.inj h1
      rw [List.dropWhile_cons, hx, hc]
      simp
  rw [h2, List.reverse_reverse]

theorem getLast?_dropWhile_of_last (p : Char → Bool) (l : List Char) (c : Char)
    (hl : l.getLast? = some c) (hc : p c = false) :
    (List.dropWhile p l).getLast? = some c := by
  induction l with
  | nil => simp at hl
  | cons a t ih =>
    cases t with
    | nil =>
      simp only [List.getLast?_singleton, Option.some.injEq] at hl
      subst hl
      rw [List.dropWhile_cons, hc]
      simp
    | cons b t2 =>
      have hl2 : (b :: t2).getLast? = some c := by
        rw [← List.getLast?_cons_cons (a := a)]; exact hl
      rw [List.dropWhile_cons]
      by_cases hpa : p a = true
      · rw [if_pos hpa]; exact ih hl2
      · rw [if_neg hpa]; exact hl

theorem mem_of_mem_dropWhile (p : Char → Bool) (l : List Char) (a : Char)
    (h : a ∈ List.dropWhile p l) : a ∈ l :=
  (List.dropWhile_sublist p).subset h

/-- Both the dot-bearing and the dot-free `Z`-suffixed string reduce,
inside `parse_timeL`, to the same `fromiso` call on the left-trimmed
prefix: the text from the first dot up to the final `Z` is discarded. -/
theorem parse_timeL_dot_z (P D : List Char) (hP : '.' ∉ P) :
    parse_timeL (P ++ '.' :: (D ++ ['Z'])) = parse_timeL (P ++ ['Z']) := by
  have hwdot : Char.isWhitespace '.' = false := by decide
  have hwz : Char.isWhitespace 'Z' = false := by decide
  set A := List.dropWhile Char.isWhitespace P with hA
  have hApre : ∀ a ∈ A, a ∈ P := fun a ha => mem_of_mem_dropWhile _ _ _ ha
  have hAnd : '.' ∉ A := fun h => hP (hApre _ h)
  -- left-hand side
  have l1ne : P ++ '.' :: (D ++ ['Z']) ≠ [] := by simp
  have hdw1 : List.dropWhile Char.isWhitespace (P ++ '.' :: (D ++ ['Z']))
      = A ++ '.' :: (D ++ ['Z']) := dropWhile_append_cons _ _ _ _ hwdot
  have hlast1 : (A ++ '.' :: (D ++ ['Z'])).getLast? = some 'Z' := by
    rw [getLast?_append_cons]
    rw [show ('.' :: (D ++ ['Z'])) = ('.' :: D) ++ ['Z'] from by simp]
    exact List.getLast?_concat _
  have hstrip1 : pyStripL (P ++ '.' :: (D ++ ['Z'])) = A ++ '.' :: (D ++ ['Z']) := by
    unfold pyStripL
    rw [hdw1, stripRight_eq_self _ 'Z' hlast1 hwz]
  have hdrop1 : (A ++ '.' :: (D ++ ['Z'])).dropLast = A ++ '.' :: D := by
    rw [show A ++ '.' :: (D ++ ['Z']) = (A ++ '.' :: D) ++ ['Z'] from by simp]
    exact List.dropLast_concat
  have hcut1 : cutDot (A ++ '.' :: D) = A := by
    unfold cutDot
    rw [if_pos (by simp : '.' ∈ A ++ '.' :: D)]
    refine takeWhile_append_cons _ _ _ _ ?_ (by simp)
    intro a ha
    simp only [decide_eq_true_eq]
    exact fun h => hAnd (h ▸ ha)
  -- right-hand side
  have l2ne : P ++ ['Z'] ≠ [] := by simp
  have hdw2 : List.dropWhile Char.isWhitespace (P ++ ['Z']) = A ++ ['Z'] := by
    have := dropWhile_append_cons Char.isWhitespace P [] 'Z' hwz
    simpa using this
  have hstrip2 : pyStripL (P ++ ['Z']) = A ++ ['Z'] := by
    unfold pyStripL
    rw [hdw2, stripRight_eq_self _ 'Z' (List.getLast?_concat _) hwz]
  have hcut2 : cutDot A = A := by
    unfold cutDot
    rw [if_neg hAnd]
  unfold parse_timeL
  rw [if_neg l1ne, if_neg l2ne, hstrip1, hstrip2]
  unfold afterZ
  rw [if_pos hlast1, if_pos (List.getLast?_concat _), hdrop1, List.dropLast_concat]
  show finishParse true (fromiso (cutDot (A ++ '.' :: D)))
    = finishParse true (fromiso (cutDot A))
  rw [hcut1, hcut2]

/-- When the text after the first dot does not end in `Z` (for instance a
fractional part followed by a numeric offset), `parse_timeL` of the whole
string equals `parse_timeL` of the prefix before the dot. -/
theorem parse_timeL_dot_noZ (P Q : List Char)
    (hP : '.' ∉ P)
    (hPl : ∃ c, P.getLast? = some c ∧ c.isWhitespace = false ∧ c ≠ 'Z')
    (hQl : ∃ c, Q.getLast? = some c ∧ c.isWhitespace = false ∧ c ≠ 'Z') :
    parse_timeL (P ++ '.' :: Q) = parse_timeL P := by
  obtain ⟨cp, hcp, hcpw, hcpz⟩ := hPl
  obtain ⟨cq, hcq, hcqw, hcqz⟩ := hQl
  have hwdot : Char.isWhitespace '.' = false := by decide
  have hPne : P ≠ [] := by
    intro h; rw [h] at hcp; simp at hcp
  have hQne : Q ≠ [] := by
    intro h; rw [h] at hcq; simp at hcq
  set A := List.dropWhile Char.isWhitespace P with hA
  have hApre : ∀ a ∈ A, a ∈ P := fun a ha => mem_of_mem_dropWhile _ _ _ ha
  have hAnd : '.' ∉ A := fun h => hP (hApre _ h)
  have hAlast : A.getLast? = some cp := getLast?_dropWhile_of_last _ _ _ hcp hcpw
  -- left-hand side
  have l1ne : P ++ '.' :: Q ≠ [] := by simp
  have hdw1 : List.dropWhile Char.isWhitespace (P ++ '.' :: Q) = A ++ '.' :: Q :=
    dropWhile_append_cons _ _ _ _ hwdot
  have hlast1 : (A ++ '.' :: Q).getLast? = some cq := by
    rw [getLast?_append_cons, getLast?_cons_of_ne_nil _ _ hQne]
    exact hcq
  have hstrip1 : pyStripL (P ++ '.' :: Q) = A ++ '.' :: Q := by
    unfold pyStripL
    rw [hdw1, stripRight_eq_self _ cq hlast1 hcqw]
  have hz1 : ¬ (A ++ '.' :: Q).getLast? = some 'Z' := by
    rw [hlast1]; simp [hcqz]
  have hcut1 : cutDot (A ++ '.' :: Q) = A := by
    unfold cutDot
    rw [if_pos (by simp : '.' ∈ A ++ '.' :: Q)]
    refine takeWhile_append_cons _ _ _ _ ?_ (by simp)
    intro a ha
    simp only [decide_eq_true_eq]
    exact fun h => hAnd (h ▸ ha)
  -- right-hand side
  have hstrip2 : pyStripL P = A := by
    unfold pyStripL
    rw [stripRight_eq_self _ cp hAlast hcpw]
  have hz2 : ¬ A.getLast? = some 'Z' := by
    rw [hAlast]; simp [hcpz]
  have hcut2 : cutDot A = A := by
    unfold cutDot
    rw [if_neg hAnd]
  unfold parse_timeL
  rw [if_neg l1ne, if_neg hPne, hstrip1, hstrip2]
  unfold afterZ
  rw [if_neg hz1, if_neg hz2]
  show finishParse false (fromiso (cutDot (A ++ '.' :: Q)))
    = finishParse false (fromiso (cutDot A))
  rw [hcut1, hcut2]

end Monitor

/-! ## Claims C6 and C9: the timestamp parser -/

/-- C6: For every timestamp string that ends in a literal Z and contains a
fractional-second part of N ≥ 0 digits, `parse_time` yields the same UTC
instant as on the same string with the fractional part removed. -/
theorem claim_C6 (p ds : String) (hp : '.' ∉ p.data)
    (hds : ∀ c ∈ ds.data, c.isDigit = true) :
    Monitor.parse_time (some (p ++ "." ++ ds ++ "Z"))
      = Monitor.parse_time (some (p ++ "Z")) := by
  show Monitor.parse_timeL (p ++ "." ++ ds ++ "Z").data
    = Monitor.parse_timeL (p ++ "Z").data
  have h1 : (p ++ "." ++ ds ++ "Z").data
      = p.data ++ '.' :: (ds.data ++ ['Z']) := by
    simp [String.data_append]
  have h2 : (p ++ "Z").data = p.data ++ ['Z'] := by
    simp [String.data_append]
  rw [h1, h2]
  exact Monitor.parse_timeL_dot_z p.data ds.data hp

/-- C6 witness: a concrete nine-digit fractional part. -/
theorem claim_C6_witness :
    Monitor.parse_time (some ("2025-07-01T10:00:00" ++ "." ++ "123456789" ++ "Z"))
      = Monitor.parse_time (some ("2025-07-01T10:00:00" ++ "Z")) :=
  claim_C6 "2025-07-01T10:00:00" "123456789" (by decide) (by decide)

/-- C9: For a timestamp string that does not end in Z but carries a
fractional part followed by further text such as a numeric offset (whose
last character is not whitespace and not Z), the parser truncates at the
first dot, so the result equals parsing the bare prefix, which is then
interpreted as UTC; concretely, `2025-07-01T10:00:00.5+02:00` parses to
10:00 UTC while the same string without the fractional part parses to
08:00 UTC, an instant shifted by the discarded two-hour offset. -/
theorem claim_C9 (p q : String) (hp : '.' ∉ p.data)
    (hpl : ∃ c, p.data.getLast? = some c ∧ c.isWhitespace = false ∧ c ≠ 'Z')
    (hql : ∃ c, q.data.getLast? = some c ∧ c.isWhitespace = false ∧ c ≠ 'Z') :
    Monitor.parse_time (some (p ++ "." ++ q)) = Monitor.parse_time (some p)
    ∧ Monitor.parse_time (some "2025-07-01T10:00:00.5+02:00") = some 1751364000
    ∧ Monitor.parse_time (some "2025-07-01T10:00:00+02:00")
        = some (1751364000 - 7200) := by
  refine ⟨?_, by decide, by decide⟩
  show Monitor.parse_timeL (p ++ "." ++ q).data = Monitor.parse_timeL p.data
  have h1 : (p ++ "." ++ q).data = p.data ++ '.' :: q.data := by
    simp [String.data_append]
  rw [h1]
  exact Monitor.parse_timeL_dot_noZ p.data q.data hp hpl hql

/-- C9 witness: the concrete fractional-plus-offset suffix. -/
theorem claim_C9_witness :
    Monitor.parse_time (some ("2025-07-01T10:00:00" ++ "." ++ "5+02:00"))
      = Monitor.parse_time (some "2025-07-01T10:00:00") :=
  (claim_C9 "2025-07-01T10:00:00" "5+02:00" (by decide)
    ⟨'0', by decide⟩ ⟨'0', by decide⟩).1

/-! ## Claims C1, C4, C5: timestamp resolution and health classification -/

theorem foldl_max_spec (l : List Int) : ∀ a : Int,
    a ≤ l.foldl max a ∧ (∀ x ∈ l, x ≤ l.foldl max a) ∧
    (l.foldl max a = a ∨ l.foldl max a ∈ l) := by
  induction l with
  | nil => intro a; exact ⟨le_refl a, by simp, Or.inl rfl⟩
  | cons b t ih =>
    intro a
    rw [List.foldl_cons]
    obtain ⟨h1, h2, h3⟩ := ih (max a b)
    refine ⟨le_trans (le_max_left a b) h1, ?_, ?_⟩
    · intro x hx
      rcases List.mem_cons.mp hx with hxb | hxt
      · rw [hxb]; exact le_trans (le_max_right a b) h1
      · exact h2 x hxt
    · rcases h3 with h3 | h3
      · rcases max_choice a b with hm | hm
        · exact Or.inl (h3.trans hm)
        · exact Or.inr (by rw [h3, hm]; exact List.mem_cons_self b t)
      · exact Or.inr (List.mem_cons_of_mem b h3)

theorem max?_spec (l : List Int) (r : Int) (h : l.max? = some r) :
    r ∈ l ∧ ∀ x ∈ l, x ≤ r := by
  cases l with
  | nil => exact absurd h (by simp [List.max?])
  | cons a t =>
    have hd : List.max? (a :: t) = some (t.foldl max a) := rfl
    rw [hd] at h
    have hr : r = t.foldl max a := (Option.some.inj h).symm
    obtain ⟨h1, h2, h3⟩ := foldl_max_spec t a
    subst hr
    constructor
    · rcases h3 with h3 | h3
      · rw [h3]; exact List.mem_cons_self a t
      · exact List.mem_cons_of_mem a h3
    · intro x hx
      rcases List.mem_cons.mp hx with hxa | hxt
      · exact hxa ▸ h1
      · exact h2 x hxt

/-- C1: when more than one of FinishedAt, StartedAt, Created parses, the
resolved last-activity timestamp is the chronologically latest parseable
candidate (not the first in precedence order); in particular, with both
FinishedAt and StartedAt parseable, StartedAt later, and Created no later
than StartedAt, the result is StartedAt. -/
theorem claim_C1 (info : Monitor.ContainerDetail) :
    (2 ≤ (Monitor.candidatesOf info).length →
      ∃ r, Monitor.container_last_event_ts info = some r ∧
        r ∈ Monitor.candidatesOf info ∧
        ∀ t ∈ Monitor.candidatesOf info, t ≤ r)
    ∧ (∀ f b : Int,
        Monitor.parse_time (Monitor.stateOf info).FinishedAt = some f →
        Monitor.parse_time (Monitor.stateOf info).StartedAt = some b →
        f < b →
        (∀ c : Int, Monitor.parse_time info.Created = some c → c ≤ b) →
        Monitor.container_last_event_ts info = some b) := by
  constructor
  · intro hlen
    cases hc : Monitor.candidatesOf info with
    | nil => rw [hc] at hlen; simp at hlen
    | cons a t =>
      have hmax : Monitor.container_last_event_ts info = some (t.foldl max a) := by
        unfold Monitor.container_last_event_ts
        rw [hc]
        rfl
      have hspec := max?_spec (a :: t) (t.foldl max a) rfl
      exact ⟨t.foldl max a, hmax, hspec.1, hspec.2⟩
  · intro f b hf hb hlt hcr
    unfold Monitor.container_last_event_ts Monitor.candidatesOf
    rw [hf, hb]
    cases hcc : Monitor.parse_time info.Created with
    | none =>
      show List.max? ([some f, some b, none].filterMap id) = some b
      have : ([some f, some b, none].filterMap id) = [f, b] := by
        simp [List.filterMap]
      rw [this]
      show some (max f b) = some b
      rw [max_eq_right (le_of_lt hlt)]
    | some c =>
      have hcb : c ≤ b := hcr c hcc
      show List.max? ([some f, some b, some c].filterMap id) = some b
      have : ([some f, some b, some c].filterMap id) = [f, b, c] := by
        simp [List.filterMap]
      rw [this]
      show some (max (max f b) c) = some b
      rw [max_eq_right (le_of_lt hlt), max_eq_left hcb]

/-- C1 witness: FinishedAt and Created parse but StartedAt is latest. -/
theorem claim_C1_witness :
    Monitor.container_last_event_ts
      ⟨some ⟨some "2025-07-01T10:00:00Z", some "2025-07-02T10:00:00Z"⟩,
        some "2025-06-30T00:00:00Z"⟩ = some 1751450400 := by
  refine (claim_C1 _).2 1751364000 1751450400 (by decide) (by decide)
    (by decide) ?_
  intro c hc
  have h2 : some (1751241600 : Int) = some c := by rw [← hc]; decide
  injection h2 with h3
  rw [← h3]
  decide

theorem runJobs_flag (now window : Int)
    (ts : List (String × Monitor.ContainerDetail)) :
    ∀ acc : List (String × String) × Bool,
      (List.foldl (fun acc t =>
        let r := Monitor.classifyJob now window
          (Monitor.container_last_event_ts t.2)
        (Monitor.dictInsert acc.1 t.1 r.1, acc.2 || r.2)) acc ts).2
      = (acc.2 || ts.any (fun t =>
          (Monitor.classifyJob now window
            (Monitor.container_last_event_ts t.2)).2)) := by
  induction ts with
  | nil => intro acc; simp
  | cons a l ih =>
    intro acc
    rw [List.foldl_cons, ih, List.any_cons]
    obtain ⟨j, b⟩ := acc
    simp [Bool.or_assoc]

theorem runJobs_unhealthy_iff (now window : Int)
    (targets : List (String × Monitor.ContainerDetail)) :
    (Monitor.runJobs now window targets).2 = true ↔
      ∃ p ∈ targets, (Monitor.classifyJob now window
        (Monitor.container_last_event_ts p.2)).2 = true := by
  unfold Monitor.runJobs
  rw [runJobs_flag now window targets ([], false)]
  simp [List.any_eq_true]

/-- C4: the look-back window is boundary-inclusive: within the window
(including a timestamp exactly at now minus the window) the job is
classified executed_at with healthy contribution, beyond it the job is
classified last_seen and the overall health is marked unhealthy. -/
theorem claim_C4 (now window t : Int) :
    (now - t ≤ window → Monitor.classifyJob now window (some t)
        = ("executed_at: " ++ Monitor.iso8601Z t, false))
    ∧ (window < now - t → Monitor.classifyJob now window (some t)
        = ("last_seen: " ++ Monitor.iso8601Z t, true))
    ∧ Monitor.classifyJob now window (some (now - window))
        = ("executed_at: " ++ Monitor.iso8601Z (now - window), false)
    ∧ (window < now - t →
        ∀ (name : String) (info : Monitor.ContainerDetail)
          (targets : List (String × Monitor.ContainerDetail)),
          (name, info) ∈ targets →
          Monitor.container_last_event_ts info = some t →
          Monitor.healthStatus now window targets = "unhealthy") := by
  refine ⟨?_, ?_, ?_, ?_⟩
  · intro h
    show (if now - t ≤ window then _ else _) = _
    rw [if_pos h]
  · intro h
    show (if now - t ≤ window then _ else _) = _
    rw [if_neg (not_le.mpr h)]
  · show (if now - (now - window) ≤ window then _ else _) = _
    rw [if_pos (by omega : now - (now - window) ≤ window)]
  · intro h name info targets hmem hts
    have hflag : (Monitor.runJobs now window targets).2 = true :=
      (runJobs_unhealthy_iff now window targets).mpr
        ⟨(name, info), hmem, by
          show (Monitor.classifyJob now window
            (Monitor.container_last_event_ts info)).2 = true
          rw [hts]
          show (if now - t ≤ window then
            ("executed_at: " ++ Monitor.iso8601Z t, false)
            else ("last_seen: " ++ Monitor.iso8601Z t, true)).2 = true
          rw [if_neg (not_le.mpr h)]⟩
    unfold Monitor.healthStatus
    rw [hflag]
    rfl

/-- C4 witness: the exact boundary instant and a stale container. -/
theorem claim_C4_witness :
    Monitor.classifyJob 1751364000 86400 (some (1751364000 - 86400))
      = ("executed_at: " ++ Monitor.iso8601Z (1751364000 - 86400), false)
    ∧ Monitor.healthStatus 1751364000 86400
        [("ansible-job-1", ⟨some ⟨some "2025-06-01T00:00:00Z", none⟩, none⟩)]
      = "unhealthy" := by
  constructor
  · exact (claim_C4 1751364000 86400 0).2.2.1
  · exact (claim_C4 1751364000 86400 1748736000).2.2.2 (by decide)
      "ansible-job-1" ⟨some ⟨some "2025-06-01T00:00:00Z", none⟩, none⟩
      [("ansible-job-1", ⟨some ⟨some "2025-06-01T00:00:00Z", none⟩, none⟩)]
      (List.mem_cons_self _ _) (by decide)

/-- C5: with zero matched containers the report is healthy with an empty
job mapping; in general the status is unhealthy exactly when some matched
container is classified stale or unknown. -/
theorem claim_C5 (now window : Int)
    (targets : List (String × Monitor.ContainerDetail)) :
    (targets = [] → Monitor.healthStatus now window targets = "healthy"
      ∧ (Monitor.runJobs now window targets).1 = [])
    ∧ (Monitor.healthStatus now window targets = "unhealthy" ↔
        ∃ p ∈ targets, (Monitor.classifyJob now window
          (Monitor.container_last_event_ts p.2)).2 = true) := by
  constructor
  · intro h; subst h; exact ⟨rfl, rfl⟩
  · unfold Monitor.healthStatus
    cases hflag : (Monitor.runJobs now window targets).2 with
    | true =>
      simp only [if_true]
      exact ⟨fun _ => (runJobs_unhealthy_iff now window targets).mp hflag,
        fun _ => by simp⟩
    | false =>
      simp only [Bool.false_eq_true, if_false]
      constructor
      · intro h; exact absurd h (by decide)
      · intro hex
        have h2 := (runJobs_unhealthy_iff now window targets).mpr hex
        rw [hflag] at h2
        exact absurd h2 (by decide)

/-- C5 witness: the vacuous zero-container case. -/
theorem claim_C5_witness :
    Monitor.healthStatus 0 0 [] = "healthy"
    ∧ (Monitor.runJobs 0 0 []).1 = [] :=
  (claim_C5 0 0 []).1 rfl

/-! ## Claim C7: inspect failure handling -/

/-- C7: inspection returns the first element of the decoded JSON array on
success; on non-zero exit, undecodable output, a non-array value or an
empty array it returns the empty mapping (a total function, never an
exception), and an empty detail mapping classifies the container as
last_seen unknown with an unhealthy contribution. -/
theorem claim_C7 (decode : String → Option Monitor.Json)
    (code : Int) (out err : String) :
    (code ≠ 0 →
      Monitor.inspect_container decode code out err = Monitor.Json.obj [])
    ∧ (decode out = none →
      Monitor.inspect_container decode 0 out err = Monitor.Json.obj [])
    ∧ (∀ j, decode out = some j →
        (∀ x xs, j ≠ Monitor.Json.arr (x :: xs)) →
        Monitor.inspect_container decode 0 out err = Monitor.Json.obj [])
    ∧ (∀ x xs, decode out = some (Monitor.Json.arr (x :: xs)) →
        Monitor.inspect_container decode 0 out err = x)
    ∧ (∀ now window : Int, Monitor.classifyJob now window
        (Monitor.container_last_event_ts ⟨none, none⟩)
      = ("last_seen: unknown", true)) := by
  refine ⟨?_, ?_, ?_, ?_, fun now window => rfl⟩
  · intro h
    unfold Monitor.inspect_container
    rw [if_pos h]
  · intro h
    unfold Monitor.inspect_container
    rw [if_neg (by simp : ¬ ((0 : Int) ≠ 0)), h]
  · intro j hj hne
    unfold Monitor.inspect_container
    rw [if_neg (by simp : ¬ ((0 : Int) ≠ 0)), hj]
    cases j with
    | arr l =>
      cases l with
      | nil => rfl
      | cons x xs => exact absurd rfl (hne x xs)
    | null => rfl
    | bool b => rfl
    | num n => rfl
    | str s => rfl
    | obj fields => rfl
  · intro x xs h
    unfold Monitor.inspect_container
    rw [if_neg (by simp : ¬ ((0 : Int) ≠ 0)), h]

/-- C7 witness: a failing run and a one-element array. -/
theorem claim_C7_witness :
    Monitor.inspect_container (fun _ => none) 1 "" "" = Monitor.Json.obj []
    ∧ Monitor.inspect_container
        (fun _ => some (Monitor.Json.arr [Monitor.Json.str "x"])) 0 "o" ""
      = Monitor.Json.str "x" :=
  ⟨(claim_C7 (fun _ => none) 1 "" "").1 (by decide),
    (claim_C7 (fun _ => some (Monitor.Json.arr [Monitor.Json.str "x"])) 0 "o" ""
      ).2.2.2.1 (Monitor.Json.str "x") [] rfl⟩

/-! ## Claim C8: user identity resolution -/

/-- C8: the reported user identity is the first of ANSIBLE_USER, USER,
USERNAME that yields a (non-empty) value, and the literal string unknown
when none of them does. -/
theorem claim_C8 (env : String → Option String) :
    (∀ s, env "ANSIBLE_USER" = some s → s ≠ "" →
      Monitor.get_ansible_user env = s)
    ∧ ((env "ANSIBLE_USER" = none ∨ env "ANSIBLE_USER" = some "") →
        ∀ s, env "USER" = some s → s ≠ "" →
        Monitor.get_ansible_user env = s)
    ∧ ((env "ANSIBLE_USER" = none ∨ env "ANSIBLE_USER" = some "") →
        (env "USER" = none ∨ env "USER" = some "") →
        ∀ s, env "USERNAME" = some s → s ≠ "" →
        Monitor.get_ansible_user env = s)
    ∧ ((env "ANSIBLE_USER" = none ∨ env "ANSIBLE_USER" = some "") →
        (env "USER" = none ∨ env "USER" = some "") →
        (env "USERNAME" = none ∨ env "USERNAME" = some "") →
        Monitor.get_ansible_user env = "unknown") := by
  refine ⟨?_, ?_, ?_, ?_⟩
  · intro s hs hne
    unfold Monitor.get_ansible_user Monitor.pyOrStr
    rw [hs]
    simp [hne]
  · intro h1 s hs hne
    unfold Monitor.get_ansible_user Monitor.pyOrStr
    rcases h1 with h1 | h1 <;> rw [h1, hs] <;> simp [hne]
  · intro h1 h2 s hs hne
    unfold Monitor.get_ansible_user Monitor.pyOrStr
    rcases h1 with h1 | h1 <;> rcases h2 with h2 | h2 <;>
      rw [h1, h2, hs] <;> simp [hne]
  · intro h1 h2 h3
    unfold Monitor.get_ansible_user Monitor.pyOrStr
    rcases h1 with h1 | h1 <;> rcases h2 with h2 | h2 <;>
      rcases h3 with h3 | h3 <;> rw [h1, h2, h3] <;> simp

/-- C8 witness: only USER is set. -/
theorem claim_C8_witness :
    Monitor.get_ansible_user
      (fun k => if k = "USER" then some "alice" else none) = "alice" :=
  (claim_C8 (fun k => if k = "USER" then some "alice" else none)).2.1
    (Or.inl (by decide)) "alice" (by decide) (by decide)

/-! ## Claim C3: the name filter -/

/-- C3 counterexample: a record with a prefix-matching name but no
identifier field at all is not skipped; it contributes the pair
consisting of its name and the empty-string identifier. -/
theorem claim_C3_cex :
    (⟨some (Monitor.Json.str "ansible-job-1"), none, none, none⟩ :
        Monitor.ContainerSummary).ID = none
    ∧ (⟨some (Monitor.Json.str "ansible-job-1"), none, none, none⟩ :
        Monitor.ContainerSummary).Id = none
    ∧ Monitor.nameFilter "ansible"
        [⟨some (Monitor.Json.str "ansible-job-1"), none, none, none⟩]
      = [("ansible-job-1", Monitor.Json.str "")] :=
  ⟨rfl, rfl, rfl⟩

/-- C3 amended: the filter skips a record exactly when its normalized
name is not a string starting with the prefix; the identifier is never
consulted for skipping, and a matched record lacking both identifier
fields is passed on with the empty-string identifier. -/
theorem claim_C3_amended (pre : String) (c : Monitor.ContainerSummary) :
    (Monitor.matchedName pre c = none →
      ∀ cs, Monitor.nameFilter pre (c :: cs) = Monitor.nameFilter pre cs)
    ∧ (∀ s, Monitor.matchedName pre c = some s →
        ∀ cs, Monitor.nameFilter pre (c :: cs)
          = (s, Monitor.idOf c) :: Monitor.nameFilter pre cs)
    ∧ (c.ID = none → c.Id = none → Monitor.idOf c = Monitor.Json.str "") := by
  refine ⟨?_, ?_, ?_⟩
  · intro h cs
    simp [Monitor.nameFilter, List.filterMap_cons, h]
  · intro s hs cs
    simp [Monitor.nameFilter, List.filterMap_cons, hs]
  · intro h1 h2
    simp [Monitor.idOf, Monitor.pyOrJ, h1, h2]

/-- C3 amended witness: a matched list-valued name with an identifier. -/
theorem claim_C3_amended_witness :
    Monitor.nameFilter "ansible"
      [⟨some (Monitor.Json.arr [Monitor.Json.str "ansible-job-42"]), none,
        some (Monitor.Json.str "abc123"), none⟩]
      = [("ansible-job-42", Monitor.Json.str "abc123")] := by
  have h := (claim_C3_amended "ansible"
    ⟨some (Monitor.Json.arr [Monitor.Json.str "ansible-job-42"]), none,
      some (Monitor.Json.str "abc123"), none⟩).2.1 "ansible-job-42" rfl []
  exact h.trans rfl

/-! ## Dictionary lemmas for the compliance checker -/

theorem dget_append_some (d e : List (String × String)) (k v : String)
    (h : Sshd.dget d k = some v) : Sshd.dget (d ++ e) k = some v := by
  induction d with
  | nil => simp [Sshd.dget] at h
  | cons p t ih =>
    rw [List.cons_append]
    by_cases hp : p.1 = k
    · simp only [Sshd.dget, if_pos hp] at h ⊢
      exact h
    · simp only [Sshd.dget, if_neg hp] at h ⊢
      exact ih h

theorem dget_append_none (d e : List (String × String)) (k : String)
    (h : Sshd.dget d k = none) : Sshd.dget (d ++ e) k = Sshd.dget e k := by
  induction d with
  | nil => rfl
  | cons p t ih =>
    rw [List.cons_append]
    by_cases hp : p.1 = k
    · simp only [Sshd.dget, if_pos hp] at h
      exact absurd h (by simp)
    · simp only [Sshd.dget, if_neg hp] at h ⊢
      exact ih h

theorem dget_of_any_false (d : List (String × String)) (k : String)
    (h : d.any (fun p => p.1 = k) = false) : Sshd.dget d k = none := by
  induction d with
  | nil => rfl
  | cons p t ih =>
    rw [List.any_cons] at h
    simp only [Bool.or_eq_false_iff, decide_eq_false_iff_not] at h
    simp only [Sshd.dget, if_neg h.1]
    exact ih (by simpa using h.2)

theorem dget_overwrite_ne (t : List (String × String)) (k v k2 : String)
    (h : k2 ≠ k) :
    Sshd.dget (t.map (fun p => if p.1 = k then (k, v) else p)) k2
      = Sshd.dget t k2 := by
  induction t with
  | nil => rfl
  | cons q r ih =>
    rw [List.map_cons]
    by_cases hq : q.1 = k
    · rw [if_pos hq]
      simp only [Sshd.dget, if_neg (Ne.symm h)]
      rw [if_neg (fun h2 : q.1 = k2 => h (hq ▸ h2).symm), ih]
    · rw [if_neg hq]
      by_cases hq2 : q.1 = k2
      · simp only [Sshd.dget, if_pos hq2]
      · simp only [Sshd.dget, if_neg hq2]
        exact ih

theorem dget_overwrite_self (t : List (String × String)) (k v : String)
    (h : t.any (fun p => p.1 = k) = true) :
    Sshd.dget (t.map (fun p => if p.1 = k then (k, v) else p)) k = some v := by
  induction t with
  | nil => simp at h
  | cons q r ih =>
    rw [List.map_cons]
    by_cases hq : q.1 = k
    · rw [if_pos hq]
      simp [Sshd.dget]
    · rw [if_neg hq]
      rw [List.any_cons] at h
      simp only [decide_eq_true_eq, Bool.or_eq_true_iff] at h
      rcases h with h | h
      · exact absurd h hq
      · simp only [Sshd.dget, if_neg hq]
        exact ih (by simpa using h)

theorem dget_dinsert (d : List (String × String)) (k v k2 : String) :
    Sshd.dget (Sshd.dinsert d k v) k2
      = if k2 = k then some v else Sshd.dget d k2 := by
  unfold Sshd.dinsert
  by_cases hany : d.any (fun p => p.1 = k) = true
  · rw [if_pos hany]
    by_cases hk : k2 = k
    · rw [if_pos hk, hk]
      exact dget_overwrite_self d k v hany
    · rw [if_neg hk]
      exact dget_overwrite_ne d k v k2 hk
  · rw [if_neg hany]
    have hnone : Sshd.dget d k = none :=
      dget_of_any_false d k (Bool.not_eq_true _ ▸ hany)
    by_cases hk : k2 = k
    · rw [if_pos hk, hk]
      rw [dget_append_none d [(k, v)] k hnone]
      simp [Sshd.dget]
    · rw [if_neg hk]
      cases hd : Sshd.dget d k2 with
      | some w => exact dget_append_some d [(k, v)] k2 w hd
      | none =>
        refine (dget_append_none d [(k, v)] k2 hd).trans ?_
        simp only [Sshd.dget, if_neg (fun h : k = k2 => hk h.symm)]

theorem dget_dinsert_self (d : List (String × String)) (k v : String) :
    Sshd.dget (Sshd.dinsert d k v) k = some v := by
  rw [dget_dinsert]
  simp

theorem dget_dinsert_isSome (d : List (String × String)) (k v k2 : String)
    (h : (Sshd.dget d k2).isSome) :
    (Sshd.dget (Sshd.dinsert d k v) k2).isSome := by
  rw [dget_dinsert]
  by_cases hk : k2 = k <;> simp [hk, h]

theorem mem_dinsert (d : List (String × String)) (k v : String)
    (p : String × String) (h : p ∈ Sshd.dinsert d k v) :
    p.1 = k ∨ p ∈ d := by
  unfold Sshd.dinsert at h
  by_cases hany : d.any (fun q => q.1 = k) = true
  · rw [if_pos hany] at h
    obtain ⟨q, hq, hfq⟩ := List.mem_map.mp h
    by_cases hq1 : q.1 = k
    · rw [if_pos hq1] at hfq
      left; rw [← hfq]
    · rw [if_neg hq1] at hfq
      right; rw [← hfq]; exact hq
  · rw [if_neg hany] at h
    rcases List.mem_append.mp h with h | h
    · right; exact h
    · left
      have : p = (k, v) := by simpa using h
      rw [this]

theorem dget_dupdate_not_mem (src : List (String × String)) :
    ∀ (d : List (String × String)) (k2 : String),
      (∀ p ∈ src, p.1 ≠ k2) →
      Sshd.dget (Sshd.dupdate d src) k2 = Sshd.dget d k2 := by
  induction src with
  | nil => intro d k2 _; rfl
  | cons q r ih =>
    intro d k2 h
    show Sshd.dget (Sshd.dupdate (Sshd.dinsert d q.1 q.2) r) k2 = _
    rw [ih _ k2 (fun p hp => h p (List.mem_cons_of_mem q hp))]
    rw [dget_dinsert]
    rw [if_neg (fun h2 : k2 = q.1 => h q (List.mem_cons_self q r) h2.symm)]

theorem dget_dupdate_isSome (src : List (String × String)) :
    ∀ (d : List (String × String)) (k2 : String),
      (Sshd.dget d k2).isSome →
      (Sshd.dget (Sshd.dupdate d src) k2).isSome := by
  induction src with
  | nil => intro d k2 h; exact h
  | cons q r ih =>
    intro d k2 h
    show (Sshd.dget (Sshd.dupdate (Sshd.dinsert d q.1 q.2) r) k2).isSome
    exact ih _ k2 (dget_dinsert_isSome d q.1 q.2 k2 h)

theorem dget_dupdate_src_isSome (src : List (String × String)) :
    ∀ (d : List (String × String)) (k2 : String),
      (Sshd.dget src k2).isSome →
      (Sshd.dget (Sshd.dupdate d src) k2).isSome := by
  induction src with
  | nil => intro d k2 h; simp [Sshd.dget] at h
  | cons q r ih =>
    intro d k2 h
    show (Sshd.dget (Sshd.dupdate (Sshd.dinsert d q.1 q.2) r) k2).isSome
    by_cases hq : q.1 = k2
    · apply dget_dupdate_isSome
      rw [dget_dinsert, if_pos hq.symm]
      simp
    · apply ih
      simp only [Sshd.dget, if_neg hq] at h
      exact h

/-- Master invariant of the inner directive scan: the accumulator never
holds a status key, the status key of the report flips to compliant
exactly when a matching line with a differing last token is seen, keys of
the report are never dropped, an equal-valued match records the directive
in the report, and the accumulator entry of the scanned directive tracks
the last matching token. -/
theorem scanKey_spec (key dflt : String) (hkey : key ≠ "status") :
    ∀ (lines : List String) (st st' : Sshd.SshState),
      (∀ p ∈ st.msg, p.1 ≠ "status") →
      Sshd.scanKey key dflt st lines = some st' →
      (∀ p ∈ st'.msg, p.1 ≠ "status")
      ∧ (Sshd.dget st'.endMsg "status" = some "compliant" ↔
          (Sshd.dget st.endMsg "status" = some "compliant" ∨
            ∃ line ∈ lines, Sshd.differs key dflt line))
      ∧ (Sshd.dget st'.endMsg "status" = Sshd.dget st.endMsg "status" ∨
          Sshd.dget st'.endMsg "status" = some "compliant")
      ∧ (∀ k, (Sshd.dget st.endMsg k).isSome →
          (Sshd.dget st'.endMsg k).isSome)
      ∧ ((∃ line ∈ lines, Sshd.lineMatches key line = true ∧
            Sshd.lastToken line = some dflt) →
          (Sshd.dget st'.endMsg key).isSome)
      ∧ (Sshd.dget st'.msg key =
          ((Sshd.matchToks key lines).getLast?).elim (Sshd.dget st.msg key) some)
      ∧ (∀ k, k ≠ key → Sshd.dget st'.msg k = Sshd.dget st.msg k) := by
  intro lines
  induction lines with
  | nil =>
    intro st st' hmsg hrun
    have hst : st = st' := Option.some.inj hrun
    subst hst
    refine ⟨hmsg, by simp, Or.inl rfl, fun k h => h, ?_, rfl, fun k _ => rfl⟩
    rintro ⟨line, hline, -⟩
    simp at hline
  | cons line rest ih =>
    intro st st' hmsg hrun
    by_cases hm : Sshd.lineMatches key line = true
    · cases htok : Sshd.lastToken line with
      | none =>
        exfalso
        simp only [Sshd.scanKey, if_pos hm, htok] at hrun
        exact Option.noConfusion hrun
      | some tok =>
        by_cases heq : dflt = tok
        · -- equal-valued match: accumulator merged into the report
          have hrun2 : Sshd.scanKey key dflt
              ⟨Sshd.dupdate st.endMsg (Sshd.dinsert st.msg key tok),
                Sshd.dinsert st.msg key tok⟩ rest = some st' := by
            simp only [Sshd.scanKey, if_pos hm, htok, if_pos heq] at hrun
            exact hrun
          have hmsg2 : ∀ p ∈ Sshd.dinsert st.msg key tok, p.1 ≠ "status" := by
            intro p hp
            rcases mem_dinsert st.msg key tok p hp with h | h
            · rw [h]; exact hkey
            · exact hmsg p h
          obtain ⟨i1, i2, i3, i4, i5, i6, i7⟩ :=
            ih ⟨Sshd.dupdate st.endMsg (Sshd.dinsert st.msg key tok),
              Sshd.dinsert st.msg key tok⟩ st' hmsg2 hrun2
          have hstat2 : Sshd.dget
              (Sshd.dupdate st.endMsg (Sshd.dinsert st.msg key tok)) "status"
              = Sshd.dget st.endMsg "status" :=
            dget_dupdate_not_mem _ _ _ hmsg2
          have hnd : ¬ Sshd.differs key dflt line := by
            intro hd
            exact hd.2 (by rw [htok, heq])
          refine ⟨i1, ?_, ?_, ?_, ?_, ?_, ?_⟩
          · rw [i2, hstat2]
            constructor
            · rintro (h | ⟨l, hl, hdl⟩)
              · exact Or.inl h
              · exact Or.inr ⟨l, List.mem_cons_of_mem _ hl, hdl⟩
            · rintro (h | ⟨l, hl, hdl⟩)
              · exact Or.inl h
              · rcases List.mem_cons.mp hl with rfl | hl2
                · exact absurd hdl hnd
                · exact Or.inr ⟨l, hl2, hdl⟩
          · rcases i3 with h | h
            · exact Or.inl (h.trans hstat2)
            · exact Or.inr h
          · intro k hk
            exact i4 k (dget_dupdate_isSome _ _ _ hk)
          · intro _
            apply i4 key
            apply dget_dupdate_src_isSome
            rw [dget_dinsert_self]
            simp
          · rw [i6]
            have hmt : Sshd.matchToks key (line :: rest)
                = tok :: Sshd.matchToks key rest := by
              unfold Sshd.matchToks
              rw [List.filterMap_cons, if_pos hm, htok]
            rw [hmt]
            have h2 : Sshd.dget (Sshd.dinsert st.msg key tok) key = some tok :=
              dget_dinsert_self _ _ _
            rw [h2]
            cases hmr : Sshd.matchToks key rest with
            | nil => simp
            | cons m ms =>
              rw [List.getLast?_cons_cons]
              cases ho : (m :: ms).getLast? with
              | none => simp [List.getLast?_eq_none_iff] at ho
              | some x => simp
          · intro k hk
            rw [i7 k hk, dget_dinsert, if_neg hk]
        · -- differing match: only the status key of the report is set
          have hrun2 : Sshd.scanKey key dflt
              ⟨Sshd.dinsert st.endMsg "status" "compliant",
                Sshd.dinsert st.msg key tok⟩ rest = some st' := by
            simp only [Sshd.scanKey, if_pos hm, htok, if_neg heq] at hrun
            exact hrun
          have hmsg2 : ∀ p ∈ Sshd.dinsert st.msg key tok, p.1 ≠ "status" := by
            intro p hp
            rcases mem_dinsert st.msg key tok p hp with h | h
            · rw [h]; exact hkey
            · exact hmsg p h
          obtain ⟨i1, i2, i3, i4, i5, i6, i7⟩ :=
            ih ⟨Sshd.dinsert st.endMsg "status" "compliant",
              Sshd.dinsert st.msg key tok⟩ st' hmsg2 hrun2
          have hstat2 : Sshd.dget
              (Sshd.dinsert st.endMsg "status" "compliant") "status"
              = some "compliant" := dget_dinsert_self _ _ _
          have hdl : Sshd.differs key dflt line := by
            refine ⟨hm, ?_⟩
            rw [htok]
            intro h
            exact heq (Option.some.inj h).symm
          refine ⟨i1, ?_, ?_, ?_, ?_, ?_, ?_⟩
          · exact iff_of_true (i2.mpr (Or.inl hstat2))
              (Or.inr ⟨line, List.mem_cons_self _ _, hdl⟩)
          · rcases i3 with h | h
            · exact Or.inr (h.trans hstat2)
            · exact Or.inr h
          · intro k hk
            exact i4 k (dget_dinsert_isSome _ _ _ _ hk)
          · rintro ⟨l, hl, hp1, hp2⟩
            rcases List.mem_cons.mp hl with rfl | hl2
            · rw [htok] at hp2
              exact absurd (Option.some.inj hp2).symm heq
            · exact i5 ⟨l, hl2, hp1, hp2⟩
          · rw [i6]
            have hmt : Sshd.matchToks key (line :: rest)
                = tok :: Sshd.matchToks key rest := by
              unfold Sshd.matchToks
              rw [List.filterMap_cons, if_pos hm, htok]
            rw [hmt]
            have h2 : Sshd.dget (Sshd.dinsert st.msg key tok) key = some tok :=
              dget_dinsert_self _ _ _
            rw [h2]
            cases hmr : Sshd.matchToks key rest with
            | nil => simp
            | cons m ms =>
              rw [List.getLast?_cons_cons]
              cases ho : (m :: ms).getLast? with
              | none => simp [List.getLast?_eq_none_iff] at ho
              | some x => simp
          · intro k hk
            rw [i7 k hk, dget_dinsert, if_neg hk]
    · -- non-matching line: the state is unchanged
      have hrun2 : Sshd.scanKey key dflt st rest = some st' := by
        simp only [Sshd.scanKey, if_neg hm] at hrun
        exact hrun
      obtain ⟨i1, i2, i3, i4, i5, i6, i7⟩ := ih st st' hmsg hrun2
      have hnd : ¬ Sshd.differs key dflt line := fun hd => hm hd.1
      refine ⟨i1, ?_, i3, i4, ?_, ?_, i7⟩
      · rw [i2]
        constructor
        · rintro (h | ⟨l, hl, hdl⟩)
          · exact Or.inl h
          · exact Or.inr ⟨l, List.mem_cons_of_mem _ hl, hdl⟩
        · rintro (h | ⟨l, hl, hdl⟩)
          · exact Or.inl h
          · rcases List.mem_cons.mp hl with rfl | hl2
            · exact absurd hdl hnd
            · exact Or.inr ⟨l, hl2, hdl⟩
      · rintro ⟨l, hl, hp1, hp2⟩
        rcases List.mem_cons.mp hl with rfl | hl2
        · exact absurd hp1 hm
        · exact i5 ⟨l, hl2, hp1, hp2⟩
      · rw [i6]
        have hmt : Sshd.matchToks key (line :: rest)
            = Sshd.matchToks key rest := by
          unfold Sshd.matchToks
          rw [List.filterMap_cons, if_neg hm]
        rw [hmt]

/-- Outer-loop invariant over the expected directives (no directive is
named status): the report status flips to compliant exactly when some
directive has a matching line with a differing last token; report keys
persist; equal-valued matches record their directive in the report. -/
theorem scanAll_spec (lines : List String) :
    ∀ (defaults : List (String × String)) (st st' : Sshd.SshState),
      (∀ kv ∈ defaults, kv.1 ≠ "status") →
      (∀ p ∈ st.msg, p.1 ≠ "status") →
      Sshd.scanAll lines st defaults = some st' →
      (∀ p ∈ st'.msg, p.1 ≠ "status")
      ∧ (Sshd.dget st'.endMsg "status" = some "compliant" ↔
          (Sshd.dget st.endMsg "status" = some "compliant" ∨
            ∃ kv ∈ defaults, ∃ line ∈ lines, Sshd.differs kv.1 kv.2 line))
      ∧ (Sshd.dget st'.endMsg "status" = Sshd.dget st.endMsg "status" ∨
          Sshd.dget st'.endMsg "status" = some "compliant")
      ∧ (∀ k, (Sshd.dget st.endMsg k).isSome →
          (Sshd.dget st'.endMsg k).isSome)
      ∧ (∀ kv ∈ defaults,
          (∃ line ∈ lines, Sshd.lineMatches kv.1 line = true ∧
            Sshd.lastToken line = some kv.2) →
          (Sshd.dget st'.endMsg kv.1).isSome)
      ∧ (∀ k, (∀ kv ∈ defaults, kv.1 ≠ k) →
          Sshd.dget st'.msg k = Sshd.dget st.msg k) := by
  intro defaults
  induction defaults with
  | nil =>
    intro st st' _ hmsg hrun
    have hst : st = st' := Option.some.inj hrun
    subst hst
    refine ⟨hmsg, by simp, Or.inl rfl, fun k h => h, ?_, fun k _ => rfl⟩
    rintro kv hkv -
    simp at hkv
  | cons q rest ih =>
    intro st st' hd hmsg hrun
    simp only [Sshd.scanAll] at hrun
    cases hsk : Sshd.scanKey q.1 q.2 st lines with
    | none =>
      rw [hsk] at hrun
      exact absurd hrun (by simp)
    | some st2 =>
      rw [hsk] at hrun
      have hrun2 : Sshd.scanAll lines st2 rest = some st' := hrun
      have hq1 : q.1 ≠ "status" := hd q (List.mem_cons_self q rest)
      obtain ⟨s1, s2, s3, s4, s5, s6, s7⟩ :=
        scanKey_spec q.1 q.2 hq1 lines st st2 hmsg hsk
      obtain ⟨j1, j2, j3, j4, j5, j7⟩ :=
        ih st2 st' (fun kv hkv => hd kv (List.mem_cons_of_mem _ hkv)) s1 hrun2
      refine ⟨j1, ?_, ?_, fun k h => j4 k (s4 k h), ?_, ?_⟩
      · rw [j2, s2]
        constructor
        · rintro ((h | h) | h)
          · exact Or.inl h
          · exact Or.inr ⟨q, List.mem_cons_self q rest, h⟩
          · obtain ⟨kv, hkv, hl⟩ := h
            exact Or.inr ⟨kv, List.mem_cons_of_mem _ hkv, hl⟩
        · rintro (h | ⟨kv, hkv, hl⟩)
          · exact Or.inl (Or.inl h)
          · rcases List.mem_cons.mp hkv with rfl | hkv2
            · exact Or.inl (Or.inr hl)
            · exact Or.inr ⟨kv, hkv2, hl⟩
      · rcases j3 with h | h
        · rcases s3 with h2 | h2
          · exact Or.inl (h.trans h2)
          · exact Or.inr (h.trans h2)
        · exact Or.inr h
      · intro kv hkv hex
        rcases List.mem_cons.mp hkv with rfl | hkv2
        · exact j4 kv.1 (s5 hex)
        · exact j5 kv hkv2 hex
      · intro k hk
        rw [j7 k (fun kv hkv => hk kv (List.mem_cons_of_mem _ hkv)),
          s7 k (Ne.symm (hk q (List.mem_cons_self q rest)))]

/-- Per-directive accumulator tracking across the whole run: with
pairwise-distinct directive names, the accumulator entry of each
directive ends at the last token of its last matching line. -/
theorem scanAll_msg (lines : List String) :
    ∀ (defaults : List (String × String)) (st st' : Sshd.SshState)
      (kv : String × String),
      (∀ p ∈ defaults, p.1 ≠ "status") →
      (∀ p ∈ st.msg, p.1 ≠ "status") →
      (defaults.map Prod.fst).Nodup →
      kv ∈ defaults →
      Sshd.scanAll lines st defaults = some st' →
      Sshd.dget st'.msg kv.1 =
        ((Sshd.matchToks kv.1 lines).getLast?).elim (Sshd.dget st.msg kv.1) some := by
  intro defaults
  induction defaults with
  | nil =>
    intro st st' kv _ _ _ hkv _
    simp at hkv
  | cons q rest ih =>
    intro st st' kv hd hmsg hnd hkv hrun
    simp only [Sshd.scanAll] at hrun
    cases hsk : Sshd.scanKey q.1 q.2 st lines with
    | none =>
      rw [hsk] at hrun
      exact absurd hrun (by simp)
    | some st2 =>
      rw [hsk] at hrun
      have hrun2 : Sshd.scanAll lines st2 rest = some st' := hrun
      have hq1 : q.1 ≠ "status" := hd q (List.mem_cons_self q rest)
      obtain ⟨s1, s2, s3, s4, s5, s6, s7⟩ :=
        scanKey_spec q.1 q.2 hq1 lines st st2 hmsg hsk
      rcases List.mem_cons.mp hkv with rfl | hkv2
      · have hrest : ∀ p ∈ rest, p.1 ≠ kv.1 := by
          intro p hp h
          exact (List.nodup_cons.mp hnd).1 (h ▸ List.mem_map_of_mem Prod.fst hp)
        have hpres := scanAll_spec lines rest st2 st'
          (fun p hp => hd p (List.mem_cons_of_mem _ hp)) s1 hrun2
        rw [hpres.2.2.2.2.2 kv.1 hrest]
        exact s6
      · have hne : kv.1 ≠ q.1 := by
          intro h
          exact (List.nodup_cons.mp hnd).1 (h ▸ List.mem_map_of_mem Prod.fst hkv2)
        rw [ih st2 st' kv (fun p hp => hd p (List.mem_cons_of_mem _ hp)) s1
          (List.nodup_cons.mp hnd).2 hkv2 hrun2]
        rw [s7 kv.1 hne]

/-! ## Claims C2 and C10: the compliance checker -/

/-- C2 counterexample: with an expected directive literally named status,
an equal-valued match overwrites the status key of the report, so a run
containing a differing matching line can still end with a status that is
not compliant — the claimed status logic fails as stated. -/
theorem claim_C2_cex :
    Sshd.differs "status" "no" "status yes"
    ∧ (Sshd.get_ssh_config_log ["status yes", "status no"]
        [("status", "no")]).map (fun st => Sshd.dget st.endMsg "status")
      = some (some "no")
    ∧ ("no" : String) ≠ "compliant" := by
  refine ⟨by decide, by decide, by decide⟩

/-- C2 amended: provided no expected directive is itself named status,
the status starts as non-compliant and ends compliant exactly when some
expected directive has a matching non-comment line whose last
whitespace-delimited token differs from the expected default; a directive
with an equal-valued matching line is recorded in the report and never
changes the status (the status always remains compliant or
non-compliant). -/
theorem claim_C2_amended (lines : List String)
    (defaults : List (String × String)) (st' : Sshd.SshState)
    (hns : ∀ kv ∈ defaults, kv.1 ≠ "status")
    (hrun : Sshd.get_ssh_config_log lines defaults = some st') :
    (Sshd.dget st'.endMsg "status" = some "compliant" ↔
      ∃ kv ∈ defaults, ∃ line ∈ lines, Sshd.differs kv.1 kv.2 line)
    ∧ (Sshd.dget st'.endMsg "status" = some "compliant" ∨
        Sshd.dget st'.endMsg "status" = some "non-compliant")
    ∧ (∀ kv ∈ defaults,
        (∃ line ∈ lines, Sshd.lineMatches kv.1 line = true ∧
          Sshd.lastToken line = some kv.2) →
        (Sshd.dget st'.endMsg kv.1).isSome) := by
  obtain ⟨a1, a2, a3, a4, a5, a6⟩ := scanAll_spec lines defaults
    ⟨[("status", "non-compliant")], []⟩ st' hns (by simp) hrun
  refine ⟨?_, ?_, a5⟩
  · rw [a2]
    constructor
    · rintro (h | h)
      · exact absurd h (by decide)
      · exact h
    · exact Or.inr
  · rcases a3 with h | h
    · exact Or.inr h
    · exact Or.inl h

/-- C2 amended witness: one differing directive flips the status. -/
theorem claim_C2_amended_witness :
    ∃ kv ∈ [("PermitRootLogin", "no")], ∃ line ∈ ["PermitRootLogin yes"],
      Sshd.differs kv.1 kv.2 line := by
  have h := claim_C2_amended ["PermitRootLogin yes"] [("PermitRootLogin", "no")]
    ⟨[("status", "compliant")], [("PermitRootLogin", "yes")]⟩
    (by decide) (by decide)
  exact h.1.mp (by decide)

/-- C10 counterexample: with the same directive matched by two lines, the
last matching line ends with a token that is not the value found in the
written report — the report keeps the earlier equal-valued token, because
the differing branch never merges the accumulator. -/
theorem claim_C10_cex :
    (Sshd.matchToks "PermitRootLogin"
      ["PermitRootLogin no", "PermitRootLogin yes"]).getLast? = some "yes"
    ∧ (Sshd.get_ssh_config_log ["PermitRootLogin no", "PermitRootLogin yes"]
        [("PermitRootLogin", "no")]).map
        (fun st => Sshd.dget st.endMsg "PermitRootLogin")
      = some (some "no")
    ∧ ("no" : String) ≠ "yes" := by
  refine ⟨by decide, by decide, by decide⟩

/-- C10 amended: each successive match overwrites the observed value in
the internal accumulator, so the accumulator ends at the last
whitespace-delimited token of the last matching line, and the status side
effect of every intermediate match is still applied; the written report,
however, reflects the accumulator only as merged at equal-valued matches,
so the reported value can stem from an earlier matching line. -/
theorem claim_C10_amended (lines : List String)
    (defaults : List (String × String)) (st' : Sshd.SshState)
    (kv : String × String)
    (hns : ∀ p ∈ defaults, p.1 ≠ "status")
    (hnd : (defaults.map Prod.fst).Nodup)
    (hkv : kv ∈ defaults)
    (hrun : Sshd.get_ssh_config_log lines defaults = some st') :
    Sshd.dget st'.msg kv.1 = (Sshd.matchToks kv.1 lines).getLast?
    ∧ (Sshd.dget st'.endMsg "status" = some "compliant" ↔
        ∃ p ∈ defaults, ∃ line ∈ lines, Sshd.differs p.1 p.2 line) := by
  constructor
  · have h := scanAll_msg lines defaults ⟨[("status", "non-compliant")], []⟩
      st' kv hns (by simp) hnd hkv hrun
    rw [h]
    cases hx : (Sshd.matchToks kv.1 lines).getLast? with
    | none => rfl
    | some x => rfl
  · obtain ⟨a1, a2, a3, a4, a5, a6⟩ := scanAll_spec lines defaults
      ⟨[("status", "non-compliant")], []⟩ st' hns (by simp) hrun
    rw [a2]
    constructor
    · rintro (h | h)
      · exact absurd h (by decide)
      · exact h
    · exact Or.inr

/-- C10 amended witness: the accumulator ends at the last matching token
even though the report keeps the earlier one. -/
theorem claim_C10_amended_witness :
    Sshd.dget (Sshd.SshState.mk
      [("status", "compliant"), ("PermitRootLogin", "no")]
      [("PermitRootLogin", "yes")]).msg "PermitRootLogin" = some "yes" := by
  have h := claim_C10_amended ["PermitRootLogin no", "PermitRootLogin yes"]
    [("PermitRootLogin", "no")]
    ⟨[("status", "compliant"), ("PermitRootLogin", "no")],
      [("PermitRootLogin", "yes")]⟩
    ("PermitRootLogin", "no") (by decide) (by decide) (by decide) (by decide)
  exact h.1.trans (by decide)
